import Mathlib

/-!
# isotree: the header `src/isotree.hpp`

A shallow embedding of the short functions, data structures and documented
operations of the isolation-forest header, followed by the properties of
them that are proved.

Conventions.
* `size_t` is the unsigned 64-bit integer type: a value is a `Nat`, and every
  arithmetic step is reduced modulo `2 ^ 64`.
* A `double` is a value of `Dbl`: NaN, the two infinities, or a finite value.
  Only comparisons are modelled on it, with the IEEE-754 rule that every
  ordered comparison involving NaN is false and `x != x` holds only for NaN.
* Raw buffers (`size_t ix_arr[]`, `double x[]`) are functions from the index.
* Quantities whose formula involves only field operations are rationals.
-/

namespace Isotree

/-! ## Definitions -/

/-! ### Short functions (lines 84-91) -/

/-- The number of values of `size_t`. -/
def SIZE_T_CARD : Nat := 2 ^ 64

/-- The macro `#define ix_parent(ix) (((ix) - 1) / 2)` on `size_t`. -/
def ix_parent (ix : Nat) : Nat := ((ix + SIZE_T_CARD - 1) % SIZE_T_CARD) / 2

/-- The macro `#define ix_child(ix) (2 * (ix) + 1)` on `size_t`. -/
def ix_child (ix : Nat) : Nat := (2 * ix + 1) % SIZE_T_CARD

/-- The macro `#define pow2(n) ( ((size_t) 1) << (n) )`. A shift by the full width or
more is undefined in C; here the shifted value is reduced modulo `2 ^ 64`. -/
def pow2 (n : Nat) : Nat := (1 <<< n) % SIZE_T_CARD

/-- The macro `#define extract_bit(number, bit) (((number) >> (bit)) & 1)`. -/
def extract_bit (number bit : Nat) : Nat := (number >>> bit) &&& 1

/-! ### Doubles and the missing-value test (lines 93-109) -/

/-- A `double`, as far as comparisons can tell values apart. -/
inductive Dbl where
  | nan : Dbl
  | neg_inf : Dbl
  | fin (q : ℚ) : Dbl
  | pos_inf : Dbl
  deriving DecidableEq

/-- Unary minus on a `double`. -/
def Dbl.neg : Dbl → Dbl
  | Dbl.nan => Dbl.nan
  | Dbl.neg_inf => Dbl.pos_inf
  | Dbl.fin q => Dbl.fin (-q)
  | Dbl.pos_inf => Dbl.neg_inf

/-- The C comparison `a <= b`: false as soon as one side is NaN. -/
def Dbl.le : Dbl → Dbl → Bool
  | Dbl.nan, _ => false
  | _, Dbl.nan => false
  | Dbl.neg_inf, _ => true
  | _, Dbl.pos_inf => true
  | Dbl.fin a, Dbl.fin b => decide (a ≤ b)
  | Dbl.fin _, Dbl.neg_inf => false
  | Dbl.pos_inf, Dbl.neg_inf => false
  | Dbl.pos_inf, Dbl.fin _ => false

/-- The C comparison `a >= b`. -/
def Dbl.ge (a b : Dbl) : Bool := Dbl.le b a

/-- The C comparison `a < b`: false as soon as one side is NaN. -/
def Dbl.lt (a b : Dbl) : Bool := Dbl.le a b && !Dbl.le b a

/-- The C comparison `a > b`. -/
def Dbl.gt (a b : Dbl) : Bool := Dbl.lt b a

/-- The C comparison `a != b`: true as soon as one side is NaN. -/
def Dbl.ne : Dbl → Dbl → Bool
  | Dbl.nan, _ => true
  | _, Dbl.nan => true
  | a, b => decide (a ≠ b)

/-- The constant `HUGE_VAL` of `<math.h>`: positive infinity on an IEEE-754
platform. -/
def HUGE_VAL : Dbl := Dbl.pos_inf

/-- The macro `#define isnan(x) ( (x) != (x) )`, the fallback of line 97. -/
def isnan (x : Dbl) : Bool := Dbl.ne x x

/-- The macro `#define isinf(x) ( (x) >= HUGE_VAL || (x) <= -HUGE_VAL )`, the fallback
of line 105. -/
def isinf (x : Dbl) : Bool := Dbl.ge x HUGE_VAL || Dbl.le x (Dbl.neg HUGE_VAL)

/-- The macro `#define is_na_or_inf(x) (isnan(x) || isinf(x))`. -/
def is_na_or_inf (x : Dbl) : Bool := isnan x || isinf x

/-! ### Walking down the balanced weight tree -/

/-- One step down the weight tree from index `ix`: to `ix_child(ix)` (left)
or to `ix_child(ix) + 1` (right), in `size_t` arithmetic. -/
def btree_step (ix : Nat) (right : Bool) : Nat :=
  if right then (ix_child ix + 1) % SIZE_T_CARD else ix_child ix

/-- The index reached from the root index `0` by the steps of `path`. -/
def btree_descend (path : List Bool) : Nat := path.foldl btree_step 0

/-! ### Option enumerations and parameters (lines 149-154, 430-453) -/

/-- The type `enum NewCategAction {Weighted, Smallest, Random}`. -/
inductive NewCategAction where
  | Weighted | Smallest | Random
  deriving DecidableEq, Repr

/-- The type `enum MissingAction {Divide, Impute, Fail}`. -/
inductive MissingAction where
  | Divide | Impute | Fail
  deriving DecidableEq, Repr

/-- The type `enum ColType {Numeric, Categorical}`. -/
inductive ColType where
  | Numeric | Categorical
  deriving DecidableEq, Repr

/-- The type `enum CategSplit {SubSet, SingleCateg}`. -/
inductive CategSplit where
  | SubSet | SingleCateg
  deriving DecidableEq, Repr

/-- The type `enum GainCriterion {Averaged, Pooled, NoCrit}`. -/
inductive GainCriterion where
  | Averaged | Pooled | NoCrit
  deriving DecidableEq, Repr

/-- The type `enum CoefType {Uniform, Normal}`. -/
inductive CoefType where
  | Uniform | Normal
  deriving DecidableEq, Repr

/-- The struct `ModelParams` (lines 430-453); probabilities are rationals. -/
structure ModelParams where
  with_replacement : Bool
  sample_size : Nat
  ntrees : Nat
  max_depth : Nat
  penalize_range : Bool
  random_seed : Nat
  weigh_by_kurt : Bool
  prob_pick_by_gain_avg : ℚ
  prob_split_by_gain_avg : ℚ
  prob_pick_by_gain_pl : ℚ
  prob_split_by_gain_pl : ℚ
  cat_split_type : CategSplit
  new_cat_action : NewCategAction
  missing_action : MissingAction
  all_perm : Bool
  ndim : Nat
  ntry : Nat
  coef_type : CoefType
  calc_dist : Bool
  calc_depth : Bool

/-! ### Ordinals of the option enumerations (lines 149-154) -/

/-- The integer value of an enumerator of `NewCategAction`: in C the first
enumerator is `0` and each next one is one more. -/
def NewCategAction.ordinal : NewCategAction → Nat
  | NewCategAction.Weighted => 0
  | NewCategAction.Smallest => 1
  | NewCategAction.Random => 2

/-- The integer value of an enumerator of `MissingAction`. -/
def MissingAction.ordinal : MissingAction → Nat
  | MissingAction.Divide => 0
  | MissingAction.Impute => 1
  | MissingAction.Fail => 2

/-- The integer value of an enumerator of `CategSplit`. -/
def CategSplit.ordinal : CategSplit → Nat
  | CategSplit.SubSet => 0
  | CategSplit.SingleCateg => 1

/-- The integer value of an enumerator of `GainCriterion`. -/
def GainCriterion.ordinal : GainCriterion → Nat
  | GainCriterion.Averaged => 0
  | GainCriterion.Pooled => 1
  | GainCriterion.NoCrit => 2

/-- The integer value of an enumerator of `CoefType`. -/
def CoefType.ordinal : CoefType → Nat
  | CoefType.Uniform => 0
  | CoefType.Normal => 1

/-! ### Tree nodes (lines 168-246) -/

/-- The struct `IsoTree` (lines 168-204). The two range fields carry the
initializers of lines 178-179; the other fields have none. -/
structure IsoTree where
  col_type : ColType
  col_num : Nat
  num_split : Dbl
  cat_split : List Int
  chosen_cat : Int
  tree_left : Nat
  tree_right : Nat
  pct_tree_left : Dbl
  score : Dbl
  range_low : Dbl := Dbl.neg HUGE_VAL
  range_high : Dbl := HUGE_VAL
  remainder : Dbl

/-- The struct `IsoHPlane` (lines 206-246). The two range fields carry the
initializers of lines 219-220; the other fields have none. -/
structure IsoHPlane where
  col_num : List Nat
  col_type : List ColType
  coef : List Dbl
  cat_coef : List (List Dbl)
  chosen_cat : List Int
  fill_val : List Dbl
  fill_new : List Dbl
  split_point : Dbl
  hplane_left : Nat
  hplane_right : Nat
  score : Dbl
  range_low : Dbl := Dbl.neg HUGE_VAL
  range_high : Dbl := HUGE_VAL
  remainder : Dbl

/-- A default-constructed `IsoTree`: the vector is empty, the range fields
take their initializers, and the scalar fields without an initializer hold
whatever values they happen to hold, given here as arguments. -/
def IsoTree.default_constructed (col_type : ColType) (col_num : Nat) (num_split : Dbl)
    (chosen_cat : Int) (tree_left tree_right : Nat) (pct_tree_left score remainder : Dbl) :
    IsoTree :=
  { col_type := col_type, col_num := col_num, num_split := num_split, cat_split := [],
    chosen_cat := chosen_cat, tree_left := tree_left, tree_right := tree_right,
    pct_tree_left := pct_tree_left, score := score, remainder := remainder }

/-- A default-constructed `IsoHPlane`: the vectors are empty, the range fields
take their initializers, and the scalar fields without an initializer hold
whatever values they happen to hold, given here as arguments. -/
def IsoHPlane.default_constructed (split_point : Dbl) (hplane_left hplane_right : Nat)
    (score remainder : Dbl) : IsoHPlane :=
  { col_num := [], col_type := [], coef := [], cat_coef := [], chosen_cat := [],
    fill_val := [], fill_new := [], split_point := split_point,
    hplane_left := hplane_left, hplane_right := hplane_right, score := score,
    remainder := remainder }

/-! ### Category subsets from a combination counter (lines 88-91, 703-706) -/

/-- The categories among the `k` present ones whose bit is set in the
combination counter `m`: the `i < k` with `extract_bit(m, i) = 1`. -/
def category_subset (k m : Nat) : Finset Nat :=
  (Finset.range k).filter (fun i => extract_bit m i = 1)

/-! ### Expected depth and the standardized score (lines 599-602, 514-519) -/

/-- Modelled from the spec: the body of `harmonic` (declared at line 599) is
not part of the header. It is the harmonic number
`H(n) = 1 + 1/2 + ... + 1/n`, with `H(0) = 0`. -/
def harmonic : Nat → ℚ
  | 0 => 0
  | n + 1 => harmonic n + 1 / ((n : ℚ) + 1)

/-- Modelled from the spec: the body of `expected_avg_depth` (declared at line
601) is not part of the header. It is the expected path length of an
unsuccessful search in a binary search tree over `sample_size` points,
`c(n) = 2 H(n-1) - 2 (n-1) / n` for `n ≥ 2` and `c(1) = 0`. -/
def expected_avg_depth (sample_size : Nat) : ℚ :=
  if sample_size ≤ 1 then 0
  else 2 * harmonic (sample_size - 1) - 2 * ((sample_size : ℚ) - 1) / (sample_size : ℚ)

/-- Modelled from the spec: the body of `predict_iforest` (declared at line
514) is not part of the header. With `standardize` set, the mean depth `d` of
a row becomes the score `2 ^ score_exponent`, where the exponent is
`-d / c(sample_size)`. -/
def score_exponent (sample_size : Nat) (depth : ℚ) : ℚ :=
  -(depth / expected_avg_depth sample_size)

/-! ### Range penalty at predict time (lines 178-179, 520-525) -/

/-- Modelled from the spec: the traversal functions are only declared in the
header. The distance by which `x` lies outside `[range_low, range_high]`,
zero inside the range. -/
def dist_outside (range_low range_high x : ℚ) : ℚ :=
  if x < range_low then range_low - x
  else if range_high < x then x - range_high
  else 0

/-- Modelled from the spec: the argument of the logarithm in the penalty
`log2(1 + dist_outside / range_width)` that the traversal adds to the depth. -/
def range_penalty_arg (range_low range_high x : ℚ) : ℚ :=
  1 + dist_outside range_low range_high x / (range_high - range_low)

/-! ### Partitioning the row indices of a node (lines 621-623) -/

/-- The buffer `ix_arr` with the entries at positions `i` and `j` exchanged
(`temp = ix_arr[i]; ix_arr[i] = ix_arr[j]; ix_arr[j] = temp`). -/
def swap_entries (ix_arr : Nat → Nat) (i j : Nat) : Nat → Nat :=
  fun k => if k = i then ix_arr j else if k = j then ix_arr i else ix_arr k

/-- Modelled from the spec: the loop of the in-place partition, with `n` rows
`row, row + 1, ...` still to visit. A row whose value is `<= split_point` is
exchanged with the entry at position `st`, and `st` moves one up. -/
def divide_subset_split_loop (x : Nat → Dbl) (split_point : Dbl) :
    Nat → Nat → (Nat → Nat) → Nat → (Nat → Nat) × Nat
  | 0, _, ix_arr, st => (ix_arr, st)
  | n + 1, row, ix_arr, st =>
    if Dbl.le (x (ix_arr row)) split_point then
      divide_subset_split_loop x split_point n (row + 1) (swap_entries ix_arr st row) (st + 1)
    else
      divide_subset_split_loop x split_point n (row + 1) ix_arr st

/-- Modelled from the spec: the body of
`size_t divide_subset_split(size_t ix_arr[], double x[], size_t st, size_t end, double split_point)`
(declared at line 621) is not part of the header. It partitions
`ix_arr[st, end)` in place into the rows with `x <= split_point` followed by
the rows with `x > split_point`, and returns the buffer with `split_ix`, the
position where the second part starts. -/
def divide_subset_split (ix_arr : Nat → Nat) (x : Nat → Dbl) (st end_ : Nat)
    (split_point : Dbl) : (Nat → Nat) × Nat :=
  divide_subset_split_loop x split_point (end_ - st) st ix_arr st

/-! ### Dense form of the triangular similarity buffer (line 611) -/

/-- The shape of a built tree. In the header a tree is a `std::vector<IsoTree>`
whose nodes point to their children by index (`tree_left`, `tree_right`); here
the children are nested. A terminal node keeps the depth at which it was
entered and the number of rows left in it, from which its `score` is made. -/
inductive ITree where
  | leaf (curr_depth : Nat) (n_rows : Nat) : ITree
  | node (split_ix : Nat) (tree_left : ITree) (tree_right : ITree) : ITree
  deriving DecidableEq, Repr

/-- What one node of the builder gets from the data and the random generator:
whether the sum of the training weights of the rows `[st, end)` is zero, and
the position `split_ix` of the partition it makes at `curr_depth`, or nothing
when every sampled column proved unsplittable. -/
structure NodeChoice where
  weight_is_zero : Nat → Nat → Bool
  choose_split : Nat → Nat → Nat → Option Nat

/-- Modelled from the spec: the body of `split_itree_recursive` (declared at
line 495) is not part of the header. A node over the rows `[st, end)` entered
at `curr_depth` becomes terminal when `end - st <= 1`, when the depth is
limited and `curr_depth >= max_depth`, when the weights sum to zero, or when
no column can be split; otherwise the rows are partitioned at `split_ix` and
both parts are built at `curr_depth + 1`. The header's `ModelParams` has no
field for the depth limit being on, so `limit_depth` stands beside it. -/
def split_itree_recursive (choice : NodeChoice) (model_params : ModelParams)
    (limit_depth : Bool) (st end_ curr_depth : Nat) : ITree :=
  if end_ - st ≤ 1 then ITree.leaf curr_depth (end_ - st)
  else if limit_depth && decide (model_params.max_depth ≤ curr_depth) then
    ITree.leaf curr_depth (end_ - st)
  else if choice.weight_is_zero st end_ then ITree.leaf curr_depth (end_ - st)
  else
    match choice.choose_split st end_ curr_depth with
    | none => ITree.leaf curr_depth (end_ - st)
    | some split_ix =>
      if h : st < split_ix ∧ split_ix < end_ then
        ITree.node split_ix
          (split_itree_recursive choice model_params limit_depth st split_ix (curr_depth + 1))
          (split_itree_recursive choice model_params limit_depth split_ix end_ (curr_depth + 1))
      else ITree.leaf curr_depth (end_ - st)
termination_by end_ - st
decreasing_by
  all_goals simp_wf
  all_goals omega

/-- The depths of the terminal nodes of a tree whose root is at depth `d`,
counted along the path from the root. -/
def ITree.leaf_depths : ITree → Nat → List Nat
  | ITree.leaf _ _, d => [d]
  | ITree.node _ l r, d => ITree.leaf_depths l (d + 1) ++ ITree.leaf_depths r (d + 1)

/-- Whether the terminal nodes carry the depth of their path from the root. -/
def ITree.depths_recorded : ITree → Nat → Bool
  | ITree.leaf c _, d => decide (c = d)
  | ITree.node _ l r, d => ITree.depths_recorded l (d + 1) && ITree.depths_recorded r (d + 1)

/-- A builder's data for a skewed tree: no weight is zero and every node
splits off its first row. -/
def skewed_choice : NodeChoice :=
  NodeChoice.mk (fun _ _ => false) (fun st _ _ => some (st + 1))

/-- Parameters with `max_depth = 2` for a sample of `5` rows and one tree. -/
def params_depth_two : ModelParams :=
  ModelParams.mk false 5 1 2 false 0 false 0 0 0 0 CategSplit.SubSet NewCategAction.Weighted
    MissingAction.Divide false 0 0 CoefType.Uniform false false

/-! ### Snapshots of the workspace (lines 307-371, 383-394, 593-594) -/

/-- The struct `WorkerMemory` (lines 307-371), as far as the row range, the
weights and the column sampler go; the scratch buffers of the split criterion
and of the extended model are left out. An `unordered_map` is a function with
optional values, and the state of the `discrete_distribution` is its list of
probabilities. -/
structure WorkerMemory where
  ix_arr : List Nat
  ix_all : List Nat
  st : Nat
  end_ : Nat
  st_NA : Nat
  end_NA : Nat
  split_ix : Nat
  weights_map : Nat → Option Dbl
  weights_arr : List Dbl
  xmin : Dbl
  xmax : Dbl
  npresent : Nat
  unsplittable : Bool
  cols_possible : List Bool
  btree_weights : List Dbl
  col_sampler : List Dbl

/-- The struct `RecursionState` (lines 383-394). -/
structure RecursionState where
  st : Nat
  st_NA : Nat
  end_NA : Nat
  split_ix : Nat
  end_ : Nat
  ix_arr : List Nat
  weights_map : Nat → Option Dbl
  weights_arr : List Dbl
  cols_possible : List Bool
  col_sampler : List Dbl

/-- Modelled from the spec: the body of `backup_recursion_state` (declared at
line 593) is not part of the header. Every field of `RecursionState` takes the
value of the field of the same name in the workspace. -/
def backup_recursion_state (workspace : WorkerMemory) : RecursionState :=
  RecursionState.mk workspace.st workspace.st_NA workspace.end_NA workspace.split_ix
    workspace.end_ workspace.ix_arr workspace.weights_map workspace.weights_arr
    workspace.cols_possible workspace.col_sampler

/-- Modelled from the spec: the body of `restore_recursion_state` (declared at
line 594) is not part of the header. Every field of the workspace that
`RecursionState` has takes the saved value; the others stay. -/
def restore_recursion_state (workspace : WorkerMemory) (recursion_state : RecursionState) :
    WorkerMemory :=
  WorkerMemory.mk recursion_state.ix_arr workspace.ix_all recursion_state.st
    recursion_state.end_ recursion_state.st_NA recursion_state.end_NA
    recursion_state.split_ix recursion_state.weights_map recursion_state.weights_arr
    workspace.xmin workspace.xmax workspace.npresent workspace.unsplittable
    recursion_state.cols_possible workspace.btree_weights recursion_state.col_sampler

/-! ## Theorems -/

/-! ### Expected depth and score -/

theorem harmonic_eq_sum (n : Nat) :
    harmonic n = ∑ i in Finset.range n, 1 / ((i : ℚ) + 1) := by
  induction n with
  | zero => simp [harmonic]
  | succ k ih => rw [Finset.sum_range_succ, ← ih, harmonic]

theorem one_le_harmonic (n : Nat) (h : 1 ≤ n) : 1 ≤ harmonic n := by
  obtain ⟨k, rfl⟩ : ∃ k, n = k + 1 := ⟨n - 1, by omega⟩
  induction k with
  | zero => simp [harmonic]
  | succ j ih =>
    rw [harmonic]
    have h1 := ih (by omega)
    have : (0 : ℚ) ≤ 1 / (((j + 1 : Nat) : ℚ) + 1) := by positivity
    linarith

theorem expected_avg_depth_pos (n : Nat) (h : 2 ≤ n) : 0 < expected_avg_depth n := by
  unfold expected_avg_depth
  rw [if_neg (by omega)]
  have h1 : 1 ≤ harmonic (n - 1) := one_le_harmonic _ (by omega)
  have hn : (0 : ℚ) < (n : ℚ) := by exact_mod_cast (by omega : 0 < n)
  have h2 : 2 * ((n : ℚ) - 1) / (n : ℚ) < 2 := by
    rw [div_lt_iff₀ hn]
    linarith
  linarith

/-- C2: `expected_avg_depth(n)` is `2 H(n-1) - 2 (n-1) / n` for every
`n ≥ 2`, where `H(k) = harmonic(k)` is the sum `1 + 1/2 + ... + 1/k`, and it
is `0` for `n = 1`. -/
theorem expected_avg_depth_formula :
    (∀ k : Nat, harmonic k = ∑ i in Finset.range k, 1 / ((i : ℚ) + 1)) ∧
    (∀ n : Nat, 2 ≤ n →
      expected_avg_depth n = 2 * harmonic (n - 1) - 2 * ((n : ℚ) - 1) / (n : ℚ)) ∧
    expected_avg_depth 1 = 0 := by
  refine ⟨harmonic_eq_sum, ?_, ?_⟩
  · intro n hn
    unfold expected_avg_depth
    rw [if_neg (by omega)]
  · simp [expected_avg_depth]

/-- The formula of C2 at `n = 3`: `c(3) = 2 (1 + 1/2) - 4/3 = 5/3`. -/
theorem expected_avg_depth_formula_witness :
    expected_avg_depth 3 = 5 / 3 ∧
    expected_avg_depth 3 = 2 * harmonic (3 - 1) - 2 * (((3 : Nat) : ℚ) - 1) / ((3 : Nat) : ℚ) :=
  ⟨by norm_num [expected_avg_depth, harmonic],
    expected_avg_depth_formula.2.1 3 (by decide)⟩

/-- C1: for a sample size `n ≥ 2` and a mean depth `d ≥ 0`, the standardized
score `2 ^ (-d / c(n))` with `c(n) = expected_avg_depth(n)` is in `(0, 1]`. -/
theorem standardized_score_bounds (n : Nat) (hn : 2 ≤ n) (d : ℚ) (hd : 0 ≤ d) :
    0 < (2 : ℝ) ^ ((score_exponent n d : ℚ) : ℝ) ∧
    (2 : ℝ) ^ ((score_exponent n d : ℚ) : ℝ) ≤ 1 := by
  have hc := expected_avg_depth_pos n hn
  have he : score_exponent n d ≤ 0 := by
    unfold score_exponent
    have : 0 ≤ d / expected_avg_depth n := div_nonneg hd hc.le
    linarith
  have he' : ((score_exponent n d : ℚ) : ℝ) ≤ 0 := by exact_mod_cast he
  exact ⟨Real.rpow_pos_of_pos (by norm_num) _,
    Real.rpow_le_one_of_one_le_of_nonpos (by norm_num) he'⟩

/-- The bounds of C1 at `n = 2`, `d = 3`: the exponent is `-3 / c(2) = -3`. -/
theorem standardized_score_bounds_witness :
    score_exponent 2 3 = -3 ∧
    (0 < (2 : ℝ) ^ ((score_exponent 2 3 : ℚ) : ℝ) ∧
      (2 : ℝ) ^ ((score_exponent 2 3 : ℚ) : ℝ) ≤ 1) :=
  ⟨by norm_num [score_exponent, expected_avg_depth, harmonic],
    standardized_score_bounds 2 (by decide) 3 (by norm_num)⟩

/-! ### Depth limit of the builder -/

theorem split_itree_recursive_depth (choice : NodeChoice) (p : ModelParams) (n : Nat) :
    ∀ (st end_ c : Nat), end_ - st = n → c ≤ p.max_depth →
      (∀ d ∈ (split_itree_recursive choice p true st end_ c).leaf_depths c,
        d ≤ p.max_depth) ∧
      (split_itree_recursive choice p true st end_ c).depths_recorded c = true := by
  induction n using Nat.strong_induction_on with
  | _ n ih =>
    intro st end_ c hn hc
    rw [split_itree_recursive]
    split_ifs with h1 h2 h3
    · simp [ITree.leaf_depths, ITree.depths_recorded, hc]
    · simp [ITree.leaf_depths, ITree.depths_recorded, hc]
    · simp [ITree.leaf_depths, ITree.depths_recorded, hc]
    · have hlt : c < p.max_depth := by
        simp only [Bool.true_and, decide_eq_true_eq] at h2
        omega
      split
      · simp [ITree.leaf_depths, ITree.depths_recorded, hc]
      · rename_i split_ix _
        split_ifs with h4
        · have hl := ih (split_ix - st) (by omega) st split_ix (c + 1) rfl (by omega)
          have hr := ih (end_ - split_ix) (by omega) split_ix end_ (c + 1) rfl (by omega)
          refine ⟨?_, ?_⟩
          · intro d hd
            simp only [ITree.leaf_depths, List.mem_append] at hd
            rcases hd with hd | hd
            · exact hl.1 d hd
            · exact hr.1 d hd
          · simp only [ITree.depths_recorded, Bool.and_eq_true]
            exact ⟨hl.2, hr.2⟩
        · simp [ITree.leaf_depths, ITree.depths_recorded, hc]

/-- C3: with the depth limit on and `max_depth = m`, every terminal node of the
tree that `split_itree_recursive` builds from depth `0` is at depth at most
`m` and carries that depth, and a node entered with `curr_depth >= max_depth`
is terminal: it is not split. -/
theorem split_itree_recursive_max_depth (choice : NodeChoice) (model_params : ModelParams)
    (st end_ : Nat) :
    (∀ d ∈ (split_itree_recursive choice model_params true st end_ 0).leaf_depths 0,
      d ≤ model_params.max_depth) ∧
    (split_itree_recursive choice model_params true st end_ 0).depths_recorded 0 = true ∧
    (∀ curr_depth, model_params.max_depth ≤ curr_depth →
      split_itree_recursive choice model_params true st end_ curr_depth =
        ITree.leaf curr_depth (end_ - st)) := by
  have h := split_itree_recursive_depth choice model_params (end_ - st) st end_ 0 rfl
    (Nat.zero_le _)
  refine ⟨h.1, h.2, ?_⟩
  intro c hc
  rw [split_itree_recursive]
  split_ifs with h1 h2
  · rfl
  · rfl
  · simp only [Bool.true_and, decide_eq_true_eq] at h2
    exact absurd hc h2
  · simp only [Bool.true_and, decide_eq_true_eq] at h2
    exact absurd hc h2

/-- The depth limit of C3 on five rows with `max_depth = 2`, each node
splitting off its first row: the terminal nodes are at depths `1, 2, 2`. -/
theorem split_itree_recursive_max_depth_witness :
    (split_itree_recursive skewed_choice params_depth_two true 0 5 0).leaf_depths 0 =
      [1, 2, 2] ∧
    (∀ d ∈ (split_itree_recursive skewed_choice params_depth_two true 0 5 0).leaf_depths 0,
      d ≤ params_depth_two.max_depth) ∧
    split_itree_recursive skewed_choice params_depth_two true 2 5 2 = ITree.leaf 2 (5 - 2) :=
  ⟨by simp [split_itree_recursive, skewed_choice, params_depth_two, ITree.leaf_depths],
    (split_itree_recursive_max_depth skewed_choice params_depth_two 0 5).1,
    (split_itree_recursive_max_depth skewed_choice params_depth_two 2 5).2.2 2 (by decide)⟩

/-! ### Partition of the row indices -/

theorem swap_entries_eq (ix_arr : Nat → Nat) (i j : Nat) :
    swap_entries ix_arr i j = ix_arr ∘ (Equiv.swap i j) := by
  funext k
  simp only [swap_entries, Function.comp_apply, Equiv.swap_apply_def]
  split_ifs <;> rfl

theorem swap_entries_left (ix_arr : Nat → Nat) (i j : Nat) :
    swap_entries ix_arr i j i = ix_arr j := by
  simp [swap_entries]

theorem swap_entries_right (ix_arr : Nat → Nat) (i j : Nat) (h : j ≠ i) :
    swap_entries ix_arr i j j = ix_arr i := by
  simp [swap_entries, h]

theorem swap_entries_other (ix_arr : Nat → Nat) (i j k : Nat) (hi : k ≠ i) (hj : k ≠ j) :
    swap_entries ix_arr i j k = ix_arr k := by
  simp [swap_entries, hi, hj]

theorem dbl_gt_of_not_le (a b : Dbl) (ha : isnan a = false) (hb : isnan b = false)
    (h : Dbl.le a b = false) : Dbl.gt a b = true := by
  cases a <;> cases b <;>
    simp_all [Dbl.gt, Dbl.lt, Dbl.le, isnan, Dbl.ne]
  exact le_of_lt h

theorem map_perm_range' (σ : Equiv.Perm Nat) (a n : Nat)
    (hσ : ∀ k, k < a ∨ a + n ≤ k → σ k = k) :
    List.Perm ((List.range' a n).map σ) (List.range' a n) := by
  have hin : ∀ k, a ≤ k ∧ k < a + n → (a ≤ σ k ∧ σ k < a + n) := by
    intro k hk
    by_contra hc
    have h1 : σ (σ k) = σ k := hσ _ (by omega)
    have h2 : σ k = k := σ.injective h1
    rw [h2] at hc
    exact hc hk
  have hin' : ∀ k, a ≤ k ∧ k < a + n → (a ≤ σ.symm k ∧ σ.symm k < a + n) := by
    intro k hk
    by_contra hc
    have h1 : σ (σ.symm k) = σ.symm k := hσ _ (by omega)
    rw [Equiv.apply_symm_apply] at h1
    rw [← h1] at hc
    exact hc hk
  rw [List.perm_ext_iff_of_nodup ((List.nodup_range' a n).map σ.injective)
    (List.nodup_range' a n)]
  intro k
  simp only [List.mem_map, List.mem_range'_1]
  constructor
  · rintro ⟨j, hj, rfl⟩
    exact hin j hj
  · intro hk
    exact ⟨σ.symm k, hin' k hk, by simp⟩

theorem divide_subset_split_loop_spec (x : Nat → Dbl) (sp : Dbl) (n : Nat) :
    ∀ (row : Nat) (ix : Nat → Nat) (st : Nat), st ≤ row →
      (st ≤ (divide_subset_split_loop x sp n row ix st).2 ∧
        (divide_subset_split_loop x sp n row ix st).2 ≤ row + n) ∧
      (∃ σ : Equiv.Perm Nat, (∀ k, k < st ∨ row + n ≤ k → σ k = k) ∧
        (divide_subset_split_loop x sp n row ix st).1 = ix ∘ σ) ∧
      ((∀ k, st ≤ k → k < row → Dbl.le (x (ix k)) sp = false) →
        (∀ k, st ≤ k → k < (divide_subset_split_loop x sp n row ix st).2 →
          Dbl.le (x ((divide_subset_split_loop x sp n row ix st).1 k)) sp = true) ∧
        (∀ k, (divide_subset_split_loop x sp n row ix st).2 ≤ k → k < row + n →
          Dbl.le (x ((divide_subset_split_loop x sp n row ix st).1 k)) sp = false)) := by
  induction n with
  | zero =>
    intro row ix st hle
    refine ⟨⟨le_refl _, hle⟩, ⟨Equiv.refl _, fun _ _ => rfl, rfl⟩, ?_⟩
    intro hgt
    refine ⟨fun k h1 h2 => ?_, fun k h1 h2 => hgt k h1 (by simpa using h2)⟩
    simp only [divide_subset_split_loop] at h2
    omega
  | succ m ih =>
    intro row ix st hle
    by_cases hc : Dbl.le (x (ix row)) sp = true
    · have e : divide_subset_split_loop x sp (m + 1) row ix st =
          divide_subset_split_loop x sp m (row + 1) (swap_entries ix st row) (st + 1) := by
        rw [divide_subset_split_loop, if_pos hc]
      rw [e]
      obtain ⟨⟨hb1, hb2⟩, ⟨σ, hσ, hr⟩, hpart⟩ :=
        ih (row + 1) (swap_entries ix st row) (st + 1) (by omega)
      refine ⟨⟨by omega, by omega⟩, ⟨σ.trans (Equiv.swap st row), ?_, ?_⟩, ?_⟩
      · intro k hk
        have h1 : σ k = k := hσ k (by omega)
        simp only [Equiv.trans_apply, h1]
        exact Equiv.swap_apply_of_ne_of_ne (by omega) (by omega)
      · rw [hr, swap_entries_eq]
        funext k
        simp
      · intro hgt
        have hpre : ∀ k, st + 1 ≤ k → k < row + 1 →
            Dbl.le (x (swap_entries ix st row k)) sp = false := by
          intro k h1 h2
          by_cases hk : k = row
          · rw [hk, swap_entries_right ix st row (by omega)]
            exact hgt st (le_refl _) (by omega)
          · rw [swap_entries_other ix st row k (by omega) hk]
            exact hgt k (by omega) (by omega)
        obtain ⟨hl, hg⟩ := hpart hpre
        refine ⟨?_, fun k h1 h2 => hg k h1 (by omega)⟩
        intro k h1 h2
        by_cases hk : k = st
        · have h3 : σ st = st := hσ st (by omega)
          rw [hk, hr, Function.comp_apply, h3, swap_entries_left]
          exact hc
        · exact hl k (by omega) h2
    · have hc' : Dbl.le (x (ix row)) sp = false := by simpa using hc
      have e : divide_subset_split_loop x sp (m + 1) row ix st =
          divide_subset_split_loop x sp m (row + 1) ix st := by
        rw [divide_subset_split_loop, if_neg hc]
      rw [e]
      obtain ⟨⟨hb1, hb2⟩, ⟨σ, hσ, hr⟩, hpart⟩ := ih (row + 1) ix st (by omega)
      refine ⟨⟨hb1, by omega⟩, ⟨σ, fun k hk => hσ k (by omega), hr⟩, ?_⟩
      intro hgt
      have hpre : ∀ k, st ≤ k → k < row + 1 → Dbl.le (x (ix k)) sp = false := by
        intro k h1 h2
        by_cases hk : k = row
        · subst hk; exact hc'
        · exact hgt k h1 (by omega)
      obtain ⟨hl, hg⟩ := hpart hpre
      exact ⟨hl, fun k h1 h2 => hg k h1 (by omega)⟩

/-- C4: on a column `x` without NaN and a threshold that is not NaN, for
`st <= end`, `divide_subset_split` returns `split_ix` with
`st <= split_ix <= end`; the contents of `ix_arr[st, end)` are a permutation
of what they were; every row of `ix_arr[st, split_ix)` has
`x <= split_point`, every row of `ix_arr[split_ix, end)` has
`x > split_point`; and the entries outside `[st, end)` are unchanged. -/
theorem divide_subset_split_spec (ix_arr : Nat → Nat) (x : Nat → Dbl) (st end_ : Nat)
    (split_point : Dbl) (hx : ∀ r, isnan (x r) = false) (hsp : isnan split_point = false)
    (hse : st ≤ end_) :
    (st ≤ (divide_subset_split ix_arr x st end_ split_point).2 ∧
      (divide_subset_split ix_arr x st end_ split_point).2 ≤ end_) ∧
    List.Perm
      ((List.range' st (end_ - st)).map (divide_subset_split ix_arr x st end_ split_point).1)
      ((List.range' st (end_ - st)).map ix_arr) ∧
    (∀ k, st ≤ k → k < (divide_subset_split ix_arr x st end_ split_point).2 →
      Dbl.le (x ((divide_subset_split ix_arr x st end_ split_point).1 k)) split_point = true) ∧
    (∀ k, (divide_subset_split ix_arr x st end_ split_point).2 ≤ k → k < end_ →
      Dbl.gt (x ((divide_subset_split ix_arr x st end_ split_point).1 k)) split_point = true) ∧
    (∀ k, k < st ∨ end_ ≤ k →
      (divide_subset_split ix_arr x st end_ split_point).1 k = ix_arr k) := by
  have hend : st + (end_ - st) = end_ := by omega
  obtain ⟨⟨hb1, hb2⟩, ⟨σ, hσ, hr⟩, hpart⟩ :=
    divide_subset_split_loop_spec x split_point (end_ - st) st ix_arr st (le_refl _)
  rw [hend] at hb2 hσ hpart
  obtain ⟨hl, hg⟩ := hpart (fun k h1 h2 => absurd h2 (by omega))
  unfold divide_subset_split
  refine ⟨⟨hb1, hb2⟩, ?_, hl, ?_, ?_⟩
  · rw [hr, ← List.map_map]
    exact (map_perm_range' σ st (end_ - st) (by rw [hend]; exact hσ)).map ix_arr
  · intro k h1 h2
    exact dbl_gt_of_not_le _ _ (hx _) hsp (hg k h1 h2)
  · intro k hk
    rw [hr, Function.comp_apply, hσ k hk]

/-- The partition of C4 on the rows `0, 1, 2, 3` with values `1, 0, 1, 0` and
threshold `0`: the rows `1` and `3` come first and `split_ix = 2`. -/
theorem divide_subset_split_spec_witness :
    (divide_subset_split (fun k => k) (fun r => Dbl.fin (((r + 1) % 2 : Nat) : ℚ)) 0 4
      (Dbl.fin 0)).2 = 2 ∧
    (List.range' 0 4).map (divide_subset_split (fun k => k)
      (fun r => Dbl.fin (((r + 1) % 2 : Nat) : ℚ)) 0 4 (Dbl.fin 0)).1 = [1, 3, 2, 0] ∧
    (0 ≤ (divide_subset_split (fun k => k) (fun r => Dbl.fin (((r + 1) % 2 : Nat) : ℚ)) 0 4
      (Dbl.fin 0)).2 ∧
      (divide_subset_split (fun k => k) (fun r => Dbl.fin (((r + 1) % 2 : Nat) : ℚ)) 0 4
        (Dbl.fin 0)).2 ≤ 4) :=
  ⟨by norm_num [divide_subset_split, divide_subset_split_loop, Dbl.le, swap_entries],
    by norm_num [divide_subset_split, divide_subset_split_loop, Dbl.le, swap_entries, List.range'],
    (divide_subset_split_spec (fun k => k) (fun r => Dbl.fin (((r + 1) % 2 : Nat) : ℚ)) 0 4
      (Dbl.fin 0) (fun r => by simp [isnan, Dbl.ne]) (by simp [isnan, Dbl.ne])
      (by decide)).1⟩

/-! ### Range penalty -/

theorem dist_outside_nonneg (lo hi x : ℚ) : 0 ≤ dist_outside lo hi x := by
  unfold dist_outside
  split_ifs <;> linarith

theorem range_penalty_arg_mono (lo hi x y : ℚ) (h : lo < hi)
    (hxy : dist_outside lo hi x ≤ dist_outside lo hi y) :
    range_penalty_arg lo hi x ≤ range_penalty_arg lo hi y := by
  unfold range_penalty_arg
  have hw : 0 < hi - lo := by linarith
  have := div_le_div_of_nonneg_right hxy hw.le
  linarith

theorem one_le_range_penalty_arg (lo hi x : ℚ) (h : lo < hi) :
    1 ≤ range_penalty_arg lo hi x := by
  unfold range_penalty_arg
  have hw : 0 < hi - lo := by linarith
  have := div_nonneg (dist_outside_nonneg lo hi x) hw.le
  linarith

theorem logb_range_penalty_mono (lo hi x y : ℚ) (h : lo < hi)
    (hxy : dist_outside lo hi x ≤ dist_outside lo hi y) :
    Real.logb 2 ((range_penalty_arg lo hi x : ℚ) : ℝ) ≤
      Real.logb 2 ((range_penalty_arg lo hi y : ℚ) : ℝ) := by
  have h1 : (1 : ℝ) ≤ ((range_penalty_arg lo hi x : ℚ) : ℝ) := by
    exact_mod_cast one_le_range_penalty_arg lo hi x h
  have h2 : ((range_penalty_arg lo hi x : ℚ) : ℝ) ≤ ((range_penalty_arg lo hi y : ℚ) : ℝ) := by
    exact_mod_cast range_penalty_arg_mono lo hi x y h hxy
  exact Real.logb_le_logb_of_le (by norm_num) (by linarith) h2

/-- C6: at a node with `range_low < range_high`, the penalty
`log2(1 + dist_outside / (range_high - range_low))` is `0` for a value inside
the range, is never negative, and does not decrease when the distance outside
the range grows; so a depth plus the penalty does not decrease either. -/
theorem range_penalty_monotone (range_low range_high : ℚ) (h : range_low < range_high) :
    (∀ x : ℚ, range_low ≤ x → x ≤ range_high →
      Real.logb 2 ((range_penalty_arg range_low range_high x : ℚ) : ℝ) = 0) ∧
    (∀ x : ℚ, 0 ≤ Real.logb 2 ((range_penalty_arg range_low range_high x : ℚ) : ℝ)) ∧
    (∀ x y : ℚ, dist_outside range_low range_high x ≤ dist_outside range_low range_high y →
      Real.logb 2 ((range_penalty_arg range_low range_high x : ℚ) : ℝ) ≤
        Real.logb 2 ((range_penalty_arg range_low range_high y : ℚ) : ℝ)) ∧
    (∀ (depth : ℝ) (x y : ℚ),
      dist_outside range_low range_high x ≤ dist_outside range_low range_high y →
      depth + Real.logb 2 ((range_penalty_arg range_low range_high x : ℚ) : ℝ) ≤
        depth + Real.logb 2 ((range_penalty_arg range_low range_high y : ℚ) : ℝ)) := by
  refine ⟨?_, ?_, ?_, ?_⟩
  · intro x hlo hhi
    have hd : dist_outside range_low range_high x = 0 := by
      unfold dist_outside
      rw [if_neg (by linarith), if_neg (by linarith)]
    simp [range_penalty_arg, hd]
  · intro x
    have h1 : (1 : ℝ) ≤ ((range_penalty_arg range_low range_high x : ℚ) : ℝ) := by
      exact_mod_cast one_le_range_penalty_arg range_low range_high x h
    exact Real.logb_nonneg (by norm_num) h1
  · intro x y hxy
    exact logb_range_penalty_mono range_low range_high x y h hxy
  · intro depth x y hxy
    have := logb_range_penalty_mono range_low range_high x y h hxy
    linarith

/-- The penalty of C6 at the range `[0, 2]`: `1` is inside, `3` is at distance
`1` and `6` at distance `4`, so the penalty at `3` is at most that at `6`. -/
theorem range_penalty_monotone_witness :
    dist_outside 0 2 1 = 0 ∧ dist_outside 0 2 3 = 1 ∧ dist_outside 0 2 6 = 4 ∧
    Real.logb 2 ((range_penalty_arg 0 2 1 : ℚ) : ℝ) = 0 ∧
    Real.logb 2 ((range_penalty_arg 0 2 3 : ℚ) : ℝ) ≤
      Real.logb 2 ((range_penalty_arg 0 2 6 : ℚ) : ℝ) :=
  ⟨by norm_num [dist_outside], by norm_num [dist_outside], by norm_num [dist_outside],
    (range_penalty_monotone 0 2 (by norm_num)).1 1 (by norm_num) (by norm_num),
    (range_penalty_monotone 0 2 (by norm_num)).2.2.1 3 6 (by norm_num [dist_outside])⟩

/-! ### Dense similarity matrix -/

/-- C8: `is_na_or_inf` is true exactly on NaN, positive infinity and negative
infinity, and false on every finite value. -/
theorem is_na_or_inf_iff :
    (∀ x : Dbl, is_na_or_inf x = true ↔ (x = Dbl.nan ∨ x = Dbl.pos_inf ∨ x = Dbl.neg_inf)) ∧
    (∀ q : ℚ, is_na_or_inf (Dbl.fin q) = false) := by
  refine ⟨?_, ?_⟩
  · intro x
    cases x <;> simp [is_na_or_inf, isnan, isinf, Dbl.ne, Dbl.ge, Dbl.le, Dbl.neg, HUGE_VAL]
  · intro q
    simp [is_na_or_inf, isnan, isinf, Dbl.ne, Dbl.ge, Dbl.le, Dbl.neg, HUGE_VAL]

/-! ### Snapshot and restore -/

/-- C9: a snapshot of the workspace `w` taken by `backup_recursion_state` and
restored by `restore_recursion_state` into a workspace `w2` changed in any way
since gives a workspace whose `st`, `end`, `st_NA`, `end_NA`, `split_ix`,
`cols_possible`, `col_sampler`, `weights_map`, `weights_arr` and `ix_arr` are
those of `w`. -/
theorem restore_backup_recursion_state (w w2 : WorkerMemory) :
    (restore_recursion_state w2 (backup_recursion_state w)).st = w.st ∧
    (restore_recursion_state w2 (backup_recursion_state w)).end_ = w.end_ ∧
    (restore_recursion_state w2 (backup_recursion_state w)).st_NA = w.st_NA ∧
    (restore_recursion_state w2 (backup_recursion_state w)).end_NA = w.end_NA ∧
    (restore_recursion_state w2 (backup_recursion_state w)).split_ix = w.split_ix ∧
    (restore_recursion_state w2 (backup_recursion_state w)).cols_possible = w.cols_possible ∧
    (restore_recursion_state w2 (backup_recursion_state w)).col_sampler = w.col_sampler ∧
    (restore_recursion_state w2 (backup_recursion_state w)).weights_map = w.weights_map ∧
    (restore_recursion_state w2 (backup_recursion_state w)).weights_arr = w.weights_arr ∧
    (restore_recursion_state w2 (backup_recursion_state w)).ix_arr = w.ix_arr :=
  ⟨rfl, rfl, rfl, rfl, rfl, rfl, rfl, rfl, rfl, rfl⟩

/-! ### The balanced weight tree -/

theorem pow2_eq (n : Nat) (h : n < 64) : pow2 n = 2 ^ n := by
  unfold pow2 SIZE_T_CARD
  rw [Nat.one_shiftLeft]
  exact Nat.mod_eq_of_lt (Nat.pow_lt_pow_right (by norm_num) h)

theorem btree_descend_snoc (path : List Bool) (b : Bool) :
    btree_descend (path ++ [b]) = btree_step (btree_descend path) b := by
  simp [btree_descend, List.foldl_append]

theorem two_pow_succ_le (d : Nat) (h : d + 1 < 64) : 2 ^ (d + 1) ≤ 2 ^ 63 :=
  Nat.pow_le_pow_right (by norm_num) (by omega)

theorem btree_descend_range (path : List Bool) (h : path.length + 1 < 64) :
    2 ^ path.length - 1 ≤ btree_descend path ∧
      btree_descend path ≤ 2 ^ (path.length + 1) - 2 := by
  induction path using List.reverseRecOn with
  | nil => simp [btree_descend]
  | append_singleton p b ih =>
    have hlen : (p ++ [b]).length = p.length + 1 := by simp
    rw [hlen] at h ⊢
    have hp := ih (by omega)
    have h1 : 1 ≤ 2 ^ p.length := Nat.one_le_two_pow
    have h2 : 2 ^ (p.length + 1) = 2 * 2 ^ p.length := by rw [pow_succ]; ring
    have h3 : 2 ^ (p.length + 1 + 1) = 2 * 2 ^ (p.length + 1) := by rw [pow_succ]; ring
    have h4 : 2 ^ (p.length + 1 + 1) ≤ 2 ^ 63 := two_pow_succ_le _ h
    have h5 : (2 : Nat) ^ 63 < 2 ^ 64 := by norm_num
    rw [btree_descend_snoc]
    unfold btree_step ix_child SIZE_T_CARD
    have hc : (2 * btree_descend p + 1) % 2 ^ 64 = 2 * btree_descend p + 1 :=
      Nat.mod_eq_of_lt (by omega)
    rw [hc]
    cases b
    · simp only [Bool.false_eq_true, if_false]
      omega
    · simp only [if_true]
      rw [Nat.mod_eq_of_lt (by omega)]
      omega

theorem btree_descend_left (d : Nat) (h : d + 1 < 64) :
    btree_descend (List.replicate d false) = 2 ^ d - 1 := by
  induction d with
  | zero => simp [btree_descend]
  | succ k ih =>
    have hk := ih (by omega)
    have e : List.replicate (k + 1) false = List.replicate k false ++ [false] := by
      rw [List.replicate_succ' ]
    have h1 : 1 ≤ 2 ^ k := Nat.one_le_two_pow
    have h2 : 2 ^ (k + 1) = 2 * 2 ^ k := by rw [pow_succ]; ring
    have h4 : 2 ^ (k + 1) ≤ 2 ^ 63 := two_pow_succ_le _ (by omega)
    rw [e, btree_descend_snoc, hk]
    unfold btree_step ix_child SIZE_T_CARD
    simp only [Bool.false_eq_true, if_false]
    rw [Nat.mod_eq_of_lt (by omega)]
    omega

/-- C10: an index reached from the root `0` by `d` child steps, with
`pow2(d + 1)` representable, lies in `[pow2(d) - 1, pow2(d + 1) - 2]`; so every
node down to leaf level `log2_n` has an index below `2 * pow2(log2_n)`, and the
leaves of level `d` start at `pow2(d) - 1`, the index reached by going left
`d` times. -/
theorem btree_index_bounds (d : Nat) (hd : d + 1 < 64) (path : List Bool)
    (hlen : path.length = d) :
    (pow2 d - 1 ≤ btree_descend path ∧ btree_descend path ≤ pow2 (d + 1) - 2) ∧
    (∀ log2_n : Nat, d ≤ log2_n → log2_n + 1 < 64 →
      btree_descend path < 2 * pow2 log2_n ∧ 2 * pow2 log2_n < SIZE_T_CARD) ∧
    btree_descend (List.replicate d false) = pow2 d - 1 := by
  subst hlen
  have hr := btree_descend_range path hd
  rw [pow2_eq _ (by omega), pow2_eq _ hd]
  refine ⟨hr, ?_, btree_descend_left _ hd⟩
  intro log2_n hle hl
  rw [pow2_eq _ (by omega)]
  have h1 : 2 ^ (path.length + 1) ≤ 2 ^ (log2_n + 1) :=
    Nat.pow_le_pow_right (by norm_num) (by omega)
  have h2 : 2 ^ (log2_n + 1) = 2 * 2 ^ log2_n := by rw [pow_succ]; ring
  have h3 : 2 ^ (log2_n + 1) ≤ 2 ^ 63 := two_pow_succ_le _ hl
  have h4 : 1 ≤ 2 ^ path.length := Nat.one_le_two_pow
  have h5 : 2 ^ (path.length + 1) = 2 * 2 ^ path.length := by rw [pow_succ]; ring
  unfold SIZE_T_CARD
  omega

/-- The bounds of C10 at the path right, left from the root: index `5` of
level `2`, between `pow2(2) - 1 = 3` and `pow2(3) - 2 = 6`. -/
theorem btree_index_bounds_witness :
    btree_descend [true, false] = 5 ∧ pow2 2 - 1 = 3 ∧ pow2 (2 + 1) - 2 = 6 ∧
    (pow2 2 - 1 ≤ btree_descend [true, false] ∧
      btree_descend [true, false] ≤ pow2 (2 + 1) - 2) :=
  ⟨by decide, by decide, by decide, (btree_index_bounds 2 (by decide) [true, false] rfl).1⟩

/-! ### Option enumerations -/

/-- C11: each option enumeration has exactly the values the interface lists,
in that order with ordinals `0, 1, 2, ...`, and different values have
different ordinals. -/
theorem option_enumerations :
    ([NewCategAction.Weighted, NewCategAction.Smallest, NewCategAction.Random].map
        NewCategAction.ordinal = [0, 1, 2] ∧
      (∀ a : NewCategAction, a = NewCategAction.Weighted ∨ a = NewCategAction.Smallest ∨
        a = NewCategAction.Random) ∧
      Function.Injective NewCategAction.ordinal) ∧
    ([MissingAction.Divide, MissingAction.Impute, MissingAction.Fail].map
        MissingAction.ordinal = [0, 1, 2] ∧
      (∀ a : MissingAction, a = MissingAction.Divide ∨ a = MissingAction.Impute ∨
        a = MissingAction.Fail) ∧
      Function.Injective MissingAction.ordinal) ∧
    ([CategSplit.SubSet, CategSplit.SingleCateg].map CategSplit.ordinal = [0, 1] ∧
      (∀ a : CategSplit, a = CategSplit.SubSet ∨ a = CategSplit.SingleCateg) ∧
      Function.Injective CategSplit.ordinal) ∧
    ([GainCriterion.Averaged, GainCriterion.Pooled, GainCriterion.NoCrit].map
        GainCriterion.ordinal = [0, 1, 2] ∧
      (∀ a : GainCriterion, a = GainCriterion.Averaged ∨ a = GainCriterion.Pooled ∨
        a = GainCriterion.NoCrit) ∧
      Function.Injective GainCriterion.ordinal) ∧
    ([CoefType.Uniform, CoefType.Normal].map CoefType.ordinal = [0, 1] ∧
      (∀ a : CoefType, a = CoefType.Uniform ∨ a = CoefType.Normal) ∧
      Function.Injective CoefType.ordinal) := by
  refine ⟨⟨rfl, ?_, ?_⟩, ⟨rfl, ?_, ?_⟩, ⟨rfl, ?_, ?_⟩, ⟨rfl, ?_, ?_⟩, ⟨rfl, ?_, ?_⟩⟩
  · intro a; cases a <;> simp
  · intro a b h; cases a <;> cases b <;> simp_all [NewCategAction.ordinal]
  · intro a; cases a <;> simp
  · intro a b h; cases a <;> cases b <;> simp_all [MissingAction.ordinal]
  · intro a; cases a <;> simp
  · intro a b h; cases a <;> cases b <;> simp_all [CategSplit.ordinal]
  · intro a; cases a <;> simp
  · intro a b h; cases a <;> cases b <;> simp_all [GainCriterion.ordinal]
  · intro a; cases a <;> simp
  · intro a b h; cases a <;> cases b <;> simp_all [CoefType.ordinal]

/-! ### Parent and child indices, powers of two -/

/-- C12: for an index `i` with `2 * i + 2` representable in `size_t`, both
children lead back to `i`: `ix_parent(ix_child(i)) = i` and
`ix_parent(ix_child(i) + 1) = i`. -/
theorem ix_parent_ix_child (i : Nat) (h : 2 * i + 2 < SIZE_T_CARD) :
    ix_parent (ix_child i) = i ∧ ix_parent ((ix_child i + 1) % SIZE_T_CARD) = i := by
  unfold ix_parent ix_child
  simp only [SIZE_T_CARD] at h ⊢
  omega

/-- The round trip of C12 at `i = 5`: the children are `11` and `12`. -/
theorem ix_parent_ix_child_witness :
    ix_child 5 = 11 ∧ (ix_parent (ix_child 5) = 5 ∧
      ix_parent ((ix_child 5 + 1) % SIZE_T_CARD) = 5) :=
  ⟨by decide, ix_parent_ix_child 5 (by decide)⟩

/-- C14: for `n < 64`, `pow2(n)` is `2 ^ n`, the shifted value being below
`2 ^ 64` so that nothing wraps; and `pow2(n + 1) = 2 * pow2(n)` for `n < 63`. -/
theorem pow2_exact (n : Nat) (h : n < 64) :
    pow2 n = 2 ^ n ∧ 1 <<< n < SIZE_T_CARD ∧ (n < 63 → pow2 (n + 1) = 2 * pow2 n) := by
  refine ⟨pow2_eq n h, ?_, ?_⟩
  · rw [Nat.one_shiftLeft]
    exact Nat.pow_lt_pow_right (by norm_num) h
  · intro h63
    rw [pow2_eq n h, pow2_eq (n + 1) (by omega), pow_succ]
    ring

/-- The value of C14 at `n = 10`: `pow2(10) = 1024` and `pow2(11) = 2048`. -/
theorem pow2_exact_witness :
    pow2 10 = 1024 ∧ pow2 (10 + 1) = 2 * pow2 10 :=
  ⟨by decide, (pow2_exact 10 (by decide)).2.2 (by decide)⟩

theorem ix_parent_lt (ix : Nat) (h1 : 1 ≤ ix) (h2 : ix < SIZE_T_CARD) : ix_parent ix < ix := by
  unfold ix_parent
  simp only [SIZE_T_CARD] at h2 ⊢
  omega

theorem ix_parent_reaches_root (ix : Nat) :
    ix < SIZE_T_CARD → ∃ n, n ≤ ix ∧ ix_parent^[n] ix = 0 := by
  induction ix using Nat.strong_induction_on with
  | _ ix ih =>
    intro h2
    by_cases h0 : ix = 0
    · exact ⟨0, Nat.zero_le _, by simp [h0]⟩
    · have hlt := ix_parent_lt ix (by omega) h2
      obtain ⟨n, hn, hit⟩ := ih (ix_parent ix) hlt (by omega)
      exact ⟨n + 1, by omega, by rw [Function.iterate_succ_apply]; exact hit⟩

/-- C16: for an index `ix >= 1` of `size_t`, `ix_parent(ix) < ix`; `ix` is the
left child of its parent when it is odd and the right child when it is even;
and taking the parent again and again reaches the root `0` in at most `ix`
steps. -/
theorem ix_parent_decreases (ix : Nat) (h1 : 1 ≤ ix) (h2 : ix < SIZE_T_CARD) :
    ix_parent ix < ix ∧
    (ix % 2 = 1 → ix = ix_child (ix_parent ix)) ∧
    (ix % 2 = 0 → ix = (ix_child (ix_parent ix) + 1) % SIZE_T_CARD) ∧
    (∃ n, n ≤ ix ∧ ix_parent^[n] ix = 0) := by
  refine ⟨ix_parent_lt ix h1 h2, ?_, ?_, ix_parent_reaches_root ix h2⟩
  · intro hodd
    unfold ix_child ix_parent
    simp only [SIZE_T_CARD] at h2 ⊢
    omega
  · intro heven
    unfold ix_child ix_parent
    simp only [SIZE_T_CARD] at h2 ⊢
    omega

/-- The facts of C16 at `ix = 6`: its parent is `2`, it is the right child of
`2`, and one more parent step leads from `2` to the root. -/
theorem ix_parent_decreases_witness :
    ix_parent 6 = 2 ∧ ix_parent^[2] 6 = 0 ∧
    (ix_parent 6 < 6 ∧ (6 % 2 = 0 → 6 = (ix_child (ix_parent 6) + 1) % SIZE_T_CARD)) :=
  ⟨by decide, by decide,
    (ix_parent_decreases 6 (by decide) (by decide)).1,
    (ix_parent_decreases 6 (by decide) (by decide)).2.2.1⟩

/-- C17: on a 64-bit `size_t`, `0 - 1` wraps to `2 ^ 64 - 1` and
`ix_parent(0) = 2 ^ 63 - 1`, which is not `0`; and a weight tree of
`2 * pow2(log2_n)` doubles of `8` bytes that fits in the address space has no
such index. -/
theorem ix_parent_root_wraps :
    (0 + SIZE_T_CARD - 1) % SIZE_T_CARD = 2 ^ 64 - 1 ∧
    ix_parent 0 = 2 ^ 63 - 1 ∧
    ix_parent 0 ≠ 0 ∧
    (∀ log2_n : Nat, 8 * (2 * pow2 log2_n) ≤ SIZE_T_CARD → 2 * pow2 log2_n ≤ ix_parent 0) := by
  have hp : ix_parent 0 = 2 ^ 63 - 1 := by decide
  refine ⟨by decide, hp, by rw [hp]; decide, ?_⟩
  intro log2_n h
  rw [hp]
  simp only [SIZE_T_CARD] at h
  omega

/-- The bound of C17 for a tree with leaf level `3`: its `16` slots end far
below `ix_parent(0)`. -/
theorem ix_parent_root_wraps_witness :
    2 * pow2 3 = 16 ∧ 2 * pow2 3 ≤ ix_parent 0 :=
  ⟨by decide, ix_parent_root_wraps.2.2.2 3 (by decide)⟩

/-! ### Category subsets of the exhaustive search -/

theorem extract_bit_eq_testBit (m i : Nat) : extract_bit m i = (m.testBit i).toNat := by
  unfold extract_bit
  rw [Nat.and_one_is_mod, Nat.shiftRight_eq_div_pow, Nat.toNat_testBit]

theorem extract_bit_eq_one_iff (m i : Nat) : extract_bit m i = 1 ↔ m.testBit i = true := by
  rw [extract_bit_eq_testBit]
  cases m.testBit i <;> simp

theorem pow2_ne_zero_lt (n : Nat) (h : pow2 n ≠ 0) : n < 64 := by
  by_contra hc
  apply h
  unfold pow2 SIZE_T_CARD
  rw [Nat.one_shiftLeft]
  exact Nat.mod_eq_zero_of_dvd (Nat.pow_dvd_pow 2 (by omega))

theorem counter_lt_two_pow (k m : Nat) (h1 : 1 ≤ m) (h2 : m ≤ pow2 (k - 1) - 1) :
    k - 1 < 64 ∧ m < 2 ^ (k - 1) := by
  have hne : pow2 (k - 1) ≠ 0 := by omega
  have hk := pow2_ne_zero_lt _ hne
  rw [pow2_eq _ hk] at h2
  exact ⟨hk, by omega⟩

theorem testBit_false_of_counter (k m i : Nat) (hm : m < 2 ^ (k - 1)) (hi : k - 1 ≤ i) :
    m.testBit i = false :=
  Nat.testBit_lt_two_pow (lt_of_lt_of_le hm (Nat.pow_le_pow_right (by norm_num) hi))

theorem mem_category_subset (k m i : Nat) :
    i ∈ category_subset k m ↔ i < k ∧ m.testBit i = true := by
  unfold category_subset
  rw [Finset.mem_filter, Finset.mem_range, extract_bit_eq_one_iff]

/-- C13: for `k >= 2` present categories and a counter `m` with
`1 <= m <= pow2(k - 1) - 1`, the categories `i < k` with
`extract_bit(m, i) = 1` contain at least one category and leave out category
`k - 1`; another counter of that range gives a subset that is neither the same
nor the complement; and the range holds `2 ^ (k - 1) - 1` counters. -/
theorem category_subset_nontrivial (k : Nat) (hk : 2 ≤ k) (m : Nat) (h1 : 1 ≤ m)
    (h2 : m ≤ pow2 (k - 1) - 1) :
    (∃ i, i < k ∧ extract_bit m i = 1) ∧
    extract_bit m (k - 1) = 0 ∧
    (category_subset k m).Nonempty ∧
    (k - 1 ∈ Finset.range k ∧ k - 1 ∉ category_subset k m) ∧
    (∀ m2 : Nat, 1 ≤ m2 → m2 ≤ pow2 (k - 1) - 1 → m ≠ m2 →
      category_subset k m ≠ category_subset k m2 ∧
      category_subset k m ≠ Finset.range k \ category_subset k m2) ∧
    pow2 (k - 1) - 1 = 2 ^ (k - 1) - 1 := by
  obtain ⟨hk64, hm⟩ := counter_lt_two_pow k m h1 h2
  have hlast : m.testBit (k - 1) = false := testBit_false_of_counter k m _ hm (le_refl _)
  have hnot : k - 1 ∉ category_subset k m := by
    rw [mem_category_subset, hlast]
    simp
  obtain ⟨i, hi⟩ := Nat.ne_zero_implies_bit_true (show m ≠ 0 by omega)
  have hik : i < k - 1 := by
    by_contra hc
    rw [testBit_false_of_counter k m i hm (by omega)] at hi
    exact absurd hi (by simp)
  have hmem : i ∈ category_subset k m := (mem_category_subset k m i).mpr ⟨by omega, hi⟩
  refine ⟨⟨i, by omega, (extract_bit_eq_one_iff m i).mpr hi⟩, ?_, ⟨i, hmem⟩,
    ⟨Finset.mem_range.mpr (by omega), hnot⟩, ?_, by rw [pow2_eq _ hk64]⟩
  · rw [extract_bit_eq_testBit, hlast]
    rfl
  · intro m2 h3 h4 hne
    obtain ⟨_, hm2⟩ := counter_lt_two_pow k m2 h3 h4
    constructor
    · obtain ⟨j, hj⟩ := Nat.ne_implies_bit_diff hne
      have hjk : j < k - 1 := by
        by_contra hc
        rw [testBit_false_of_counter k m j hm (by omega),
          testBit_false_of_counter k m2 j hm2 (by omega)] at hj
        exact hj rfl
      intro heq
      have hiff : j ∈ category_subset k m ↔ j ∈ category_subset k m2 := by rw [heq]
      rw [mem_category_subset, mem_category_subset] at hiff
      have hjlt : j < k := by omega
      cases h5 : m.testBit j <;> cases h6 : m2.testBit j <;> simp_all
    · intro heq
      apply hnot
      rw [heq, Finset.mem_sdiff, mem_category_subset,
        testBit_false_of_counter k m2 _ hm2 (le_refl _)]
      exact ⟨Finset.mem_range.mpr (by omega), by simp⟩

/-- The subsets of C13 for `k = 3`: the counters `1, 2, 3` give `{0}`, `{1}`
and `{0, 1}`, none of which holds category `2`. -/
theorem category_subset_nontrivial_witness :
    pow2 (3 - 1) - 1 = 3 ∧
    category_subset 3 1 = {0} ∧ category_subset 3 2 = {1} ∧ category_subset 3 3 = {0, 1} ∧
    ((∃ i, i < 3 ∧ extract_bit 2 i = 1) ∧ extract_bit 2 (3 - 1) = 0) ∧
    (category_subset 3 2 ≠ category_subset 3 3 ∧
      category_subset 3 2 ≠ Finset.range 3 \ category_subset 3 3) :=
  ⟨by decide, by decide, by decide, by decide,
    ⟨(category_subset_nontrivial 3 (by decide) 2 (by decide) (by decide)).1,
      (category_subset_nontrivial 3 (by decide) 2 (by decide) (by decide)).2.1⟩,
    (category_subset_nontrivial 3 (by decide) 2 (by decide) (by decide)).2.2.2.2.1 3
      (by decide) (by decide) (by decide)⟩

/-! ### Default ranges of a node -/

theorem dbl_within_huge (x : Dbl) (hx : isnan x = false) :
    Dbl.le (Dbl.neg HUGE_VAL) x = true ∧ Dbl.le x HUGE_VAL = true := by
  cases x <;> simp_all [Dbl.le, Dbl.neg, HUGE_VAL, isnan, Dbl.ne]

/-- C15: a default-constructed `IsoTree` or `IsoHPlane` has
`range_low = -HUGE_VAL` and `range_high = HUGE_VAL`, so every value `x` that
is not NaN satisfies `range_low <= x <= range_high`. -/
theorem default_range_holds_all :
    (∀ (col_type : ColType) (col_num : Nat) (num_split : Dbl) (chosen_cat : Int)
        (tree_left tree_right : Nat) (pct_tree_left score remainder : Dbl),
      (IsoTree.default_constructed col_type col_num num_split chosen_cat tree_left tree_right
          pct_tree_left score remainder).range_low = Dbl.neg HUGE_VAL ∧
      (IsoTree.default_constructed col_type col_num num_split chosen_cat tree_left tree_right
          pct_tree_left score remainder).range_high = HUGE_VAL ∧
      ∀ x : Dbl, isnan x = false →
        Dbl.le (IsoTree.default_constructed col_type col_num num_split chosen_cat tree_left
          tree_right pct_tree_left score remainder).range_low x = true ∧
        Dbl.le x (IsoTree.default_constructed col_type col_num num_split chosen_cat tree_left
          tree_right pct_tree_left score remainder).range_high = true) ∧
    (∀ (split_point : Dbl) (hplane_left hplane_right : Nat) (score remainder : Dbl),
      (IsoHPlane.default_constructed split_point hplane_left hplane_right score
          remainder).range_low = Dbl.neg HUGE_VAL ∧
      (IsoHPlane.default_constructed split_point hplane_left hplane_right score
          remainder).range_high = HUGE_VAL ∧
      ∀ x : Dbl, isnan x = false →
        Dbl.le (IsoHPlane.default_constructed split_point hplane_left hplane_right score
          remainder).range_low x = true ∧
        Dbl.le x (IsoHPlane.default_constructed split_point hplane_left hplane_right score
          remainder).range_high = true) := by
  refine ⟨?_, ?_⟩
  · intro col_type col_num num_split chosen_cat tree_left tree_right pct_tree_left score
      remainder
    exact ⟨rfl, rfl, fun x hx => dbl_within_huge x hx⟩
  · intro split_point hplane_left hplane_right score remainder
    exact ⟨rfl, rfl, fun x hx => dbl_within_huge x hx⟩

/-- The default range of C15 against the split value `7/2` of a numeric node
and against negative infinity. -/
theorem default_range_holds_all_witness :
    isnan (Dbl.fin (7 / 2)) = false ∧
    (Dbl.le (IsoTree.default_constructed ColType.Numeric 0 (Dbl.fin (7 / 2)) 0 0 0 Dbl.nan
        Dbl.nan Dbl.nan).range_low (Dbl.fin (7 / 2)) = true ∧
      Dbl.le (Dbl.fin (7 / 2)) (IsoTree.default_constructed ColType.Numeric 0
        (Dbl.fin (7 / 2)) 0 0 0 Dbl.nan Dbl.nan Dbl.nan).range_high = true) ∧
    (Dbl.le (IsoHPlane.default_constructed Dbl.neg_inf 0 0 Dbl.nan Dbl.nan).range_low
        Dbl.neg_inf = true ∧
      Dbl.le Dbl.neg_inf
        (IsoHPlane.default_constructed Dbl.neg_inf 0 0 Dbl.nan Dbl.nan).range_high = true) :=
  ⟨by simp [isnan, Dbl.ne],
    (default_range_holds_all.1 ColType.Numeric 0 (Dbl.fin (7 / 2)) 0 0 0 Dbl.nan Dbl.nan
      Dbl.nan).2.2 (Dbl.fin (7 / 2)) (by simp [isnan, Dbl.ne]),
    (default_range_holds_all.2 Dbl.neg_inf 0 0 Dbl.nan Dbl.nan).2.2 Dbl.neg_inf
      (by simp [isnan, Dbl.ne])⟩

end Isotree
